import Mathlib

/-!
Verification of the tail-f engine (src/app.js).

The file content is modelled as a `List Char` (one `Char` per byte of the
UTF-8 text stream; the engine treats the file as line-oriented text split
on the single newline character).  Pure functions of the source are
embedded as Lean functions; the mutable `lastFileSize` state and the
debounce-timer callback are embedded as explicit state-passing functions;
fallible filesystem operations (`fs.open`, `fs.stat`, stream errors) are
embedded as `Option`-valued inputs, `none` meaning the operation failed.
-/

namespace TailF

/-- JavaScript `data.split('\n')` on a character sequence: the list of
fragments between newline delimiters.  Always nonempty; the empty input
yields `[[]]`, matching `''.split('\n') === ['']`. -/
def splitNl : List Char → List (List Char)
  | [] => [[]]
  | c :: rest =>
    if c = '\n' then [] :: splitNl rest
    else
      match splitNl rest with
      | [] => [[c]]
      | l :: ls => (c :: l) :: ls

/-- JavaScript `arr.slice(-n)` on an array: for `n = 0` this is
`arr.slice(0)`, i.e. the whole array (since `-0 === 0`); for `n ≥ 1` it is
the suffix of length `min n arr.length`. -/
def jsSliceLast {α : Type} (l : List α) (n : Nat) : List α :=
  if n = 0 then l else l.drop (l.length - n)

/-- `if (leftover) lines.unshift(leftover)` at beginning-of-file in
`getLastNLines` (src/app.js line 56-59): the leftover fragment is prepended
only when it is a truthy (nonempty) string. -/
def pushLeftover (leftover : List Char) (lines : List (List Char)) : List (List Char) :=
  if leftover.isEmpty then lines else leftover :: lines

/-- The `readChunk` recursion of `getLastNLines` (src/app.js lines 51-90),
reading fixed-size chunks backward from `position` toward the start of the
file.  The source locals are inlined here:
`bytesToRead = min position bufferSize`, `start = position - bytesToRead`,
`chunk = F[start, start + bytesToRead)`, the split of `chunk + leftover`
has head `lo` (the shifted new leftover) and tail `rest`, and the
accumulator update is `lines = rest ++ lines`.  `fuel` bounds the recursion
depth; each step consumes at least one byte of `position`, so
`fuel = position` suffices, and when the fuel is exhausted `position = 0`
and the branch below coincides with the beginning-of-file branch of the
source. -/
def tailLoopF (bufferSize : Nat) (F : List Char) (n : Nat) :
    Nat → Nat → List Char → List (List Char) → List (List Char)
  | 0, _, leftover, lines => jsSliceLast (pushLeftover leftover lines) n
  | fuel + 1, position, leftover, lines =>
    if min position bufferSize = 0 then
      jsSliceLast (pushLeftover leftover lines) n
    else
      match splitNl ((F.drop (position - min position bufferSize)).take
          (min position bufferSize) ++ leftover) with
      | [] => []
      | lo :: rest =>
        if n ≤ (rest ++ lines).length then jsSliceLast (rest ++ lines) n
        else tailLoopF bufferSize F n fuel (position - min position bufferSize)
          lo (rest ++ lines)

/-- `getLastNLines(filePath, n)` (src/app.js lines 27-94): read the file of
content `F` backward in chunks of 1024 bytes and return the last `n` lines
(`lines.slice(-n)`).  The reverse scan starts at `position = fileSize` with
empty `leftover` and `lines`. -/
def getLastNLines (F : List Char) (n : Nat) : List (List Char) :=
  tailLoopF 1024 F n F.length F.length [] []

/-- A line is blank when JavaScript `line.trim()` is falsy, i.e. every
character is whitespace (this includes the empty line). -/
def isBlankLine (l : List Char) : Bool := l.all Char.isWhitespace

/-- `getNewLines(filePath, fromPosition)` (src/app.js lines 97-119): read
the byte range from `fromPosition` to end-of-file, split on newlines, and
keep the non-blank fragments (`data.split('\n').filter(line => line.trim())`). -/
def getNewLines (content : List Char) (fromPosition : Nat) : List (List Char) :=
  (splitNl (content.drop fromPosition)).filter (fun l => !(isBlankLine l))

/-- The reference full-scan split of a file into lines named by the spec
("verify against a reference full-scan split"): the fragments of the file
content split on the newline delimiter.  The empty file has zero lines. -/
def totalLines (F : List Char) : Nat :=
  if F = [] then 0 else (splitNl F).length

/-- What `getLastNLines` actually computes, characterized over the full-scan
split of the file: the suffix of length `min n (splitNl F).length` of the
split, except that a leading empty fragment (file starting with a newline,
or the empty file) is dropped when the scan reaches beginning-of-file
without having accumulated `n` lines. -/
def lastLinesRef (F : List Char) (n : Nat) : List (List Char) :=
  if (splitNl F).length ≤ n ∧ (splitNl F).head? = some [] then (splitNl F).tail
  else (splitNl F).drop ((splitNl F).length - n)

/-! Helper lemmas about the newline split. -/

theorem splitNl_ne_nil (l : List Char) : splitNl l ≠ [] := by
  cases l with
  | nil => simp [splitNl]
  | cons c rest =>
    simp only [splitNl]
    split
    · simp
    · split <;> simp

theorem splitNl_head_no_newline :
    ∀ (l : List Char) (a : List Char) (as : List (List Char)),
      splitNl l = a :: as → '\n' ∉ a := by
  intro l
  induction l with
  | nil =>
    intro a as h
    simp only [splitNl, List.cons.injEq] at h
    rw [← h.1]
    simp
  | cons c rest ih =>
    intro a as h
    simp only [splitNl] at h
    by_cases hc : c = '\n'
    · rw [if_pos hc] at h
      injection h with h1 _
      rw [← h1]
      simp
    · rw [if_neg hc] at h
      cases hr : splitNl rest with
      | nil => exact absurd hr (splitNl_ne_nil rest)
      | cons l0 ls =>
        rw [hr] at h
        injection h with h1 _
        rw [← h1]
        intro hmem
        rcases List.mem_cons.mp hmem with h2 | h2
        · exact hc h2.symm
        · exact ih l0 ls hr h2

theorem splitNl_no_newline (l : List Char) (h : '\n' ∉ l) : splitNl l = [l] := by
  induction l with
  | nil => simp [splitNl]
  | cons c rest ih =>
    have hc : c ≠ '\n' := fun hcc => h (by simp [hcc])
    have hrest : '\n' ∉ rest := fun hm => h (List.mem_cons_of_mem _ hm)
    simp only [splitNl, if_neg hc, ih hrest]

/-- Merge two split results: glue the last fragment of the first onto the
first fragment of the second.  This is how the split of a concatenation
relates to the splits of the parts. -/
def joinLast : List (List Char) → List (List Char) → List (List Char)
  | [], bs => bs
  | [a], [] => [a]
  | [a], b :: bs => (a ++ b) :: bs
  | a :: a2 :: as, bs => a :: joinLast (a2 :: as) bs

theorem joinLast_cons (as : List (List Char)) (b : List Char)
    (bs : List (List Char)) : joinLast as (b :: bs) = joinLast as [b] ++ bs := by
  induction as with
  | nil => simp [joinLast]
  | cons a as2 ih =>
    cases as2 with
    | nil => simp [joinLast]
    | cons a2 as3 =>
      simp only [joinLast, List.cons_append]
      rw [ih]

theorem joinLast_single_ne_nil (as : List (List Char)) (b : List Char) :
    joinLast as [b] ≠ [] := by
  cases as with
  | nil => simp [joinLast]
  | cons a as2 => cases as2 <;> simp [joinLast]

theorem splitNl_append (A X : List Char) :
    splitNl (A ++ X) = joinLast (splitNl A) (splitNl X) := by
  induction A with
  | nil =>
    cases hx : splitNl X with
    | nil => exact absurd hx (splitNl_ne_nil X)
    | cons x xs => simp [splitNl, joinLast, hx]
  | cons c A ih =>
    by_cases hc : c = '\n'
    · cases ha : splitNl A with
      | nil => exact absurd ha (splitNl_ne_nil A)
      | cons a0 as =>
        simp only [List.cons_append, splitNl, if_pos hc, ha, joinLast]
        rw [List.append_eq, ih, ha]
    · cases ha : splitNl A with
      | nil => exact absurd ha (splitNl_ne_nil A)
      | cons a0 as =>
        cases as with
        | nil =>
          cases hx : splitNl X with
          | nil => exact absurd hx (splitNl_ne_nil X)
          | cons x0 xs =>
            simp only [List.cons_append, splitNl, if_neg hc, ha, hx, joinLast]
            rw [List.append_eq, ih, ha, hx]
            simp [joinLast]
        | cons a1 as2 =>
          simp only [List.cons_append, splitNl, if_neg hc, ha, joinLast]
          rw [List.append_eq, ih, ha]
          simp [joinLast]

theorem jsSliceLast_pos {α : Type} (l : List α) (n : Nat) (hn : 1 ≤ n) :
    jsSliceLast l n = l.drop (l.length - n) := by
  rw [jsSliceLast, if_neg (by omega)]

theorem jsSliceLast_append {α : Type} (q l : List α) (n : Nat) (hn : 1 ≤ n)
    (hl : n ≤ l.length) : jsSliceLast (q ++ l) n = jsSliceLast l n := by
  rw [jsSliceLast_pos _ _ hn, jsSliceLast_pos _ _ hn]
  have h1 : (q ++ l).length - n = q.length + (l.length - n) := by
    rw [List.length_append]
    omega
  rw [h1, List.drop_append]

/-- The beginning-of-file branch of `readChunk` (and the fuel-exhausted
case, which only occurs at `position = 0`) yields exactly the
`lastLinesRef` characterization. -/
theorem bofResult (F : List Char) (n : Nat) (hn : 1 ≤ n)
    (leftover : List Char) (lines : List (List Char))
    (hinv : splitNl F = leftover :: lines) :
    jsSliceLast (pushLeftover leftover lines) n = lastLinesRef F n := by
  by_cases hl : leftover = []
  · subst hl
    rw [pushLeftover, if_pos (by simp)]
    rw [lastLinesRef, hinv]
    by_cases hcase : lines.length + 1 ≤ n
    · rw [if_pos ⟨by simpa using hcase, rfl⟩]
      rw [jsSliceLast_pos _ _ hn]
      have h0 : lines.length - n = 0 := by omega
      simp [h0]
    · rw [if_neg (fun hand => hcase (by simpa using hand.1))]
      rw [jsSliceLast_pos _ _ hn]
      have h2 : ([] :: lines : List (List Char)).length - n = (lines.length - n) + 1 := by
        simp only [List.length_cons]
        omega
      rw [h2, List.drop_succ_cons]
  · rw [pushLeftover, if_neg (by simpa using hl)]
    rw [lastLinesRef, hinv]
    rw [if_neg (fun hand => hl (by simpa using hand.2))]
    rw [jsSliceLast_pos _ _ hn]

/-- Correctness of the backward chunked scan: from any state satisfying the
loop invariant (the split of the not-yet-scanned-free suffix `F.drop
position` is `leftover :: lines`, with `leftover` containing no newline),
the loop computes `lastLinesRef F n`, for any positive requested count `n`
and positive chunk size. -/
theorem tailLoopF_correct (bufferSize n : Nat) (F : List Char)
    (hb : 1 ≤ bufferSize) (hn : 1 ≤ n) :
    ∀ fuel position leftover lines, position ≤ fuel → position ≤ F.length →
      splitNl (F.drop position) = leftover :: lines → '\n' ∉ leftover →
      tailLoopF bufferSize F n fuel position leftover lines = lastLinesRef F n := by
  intro fuel
  induction fuel with
  | zero =>
    intro position leftover lines hpf _ hinv hlo
    have hp0 : position = 0 := Nat.le_zero.mp hpf
    subst hp0
    rw [List.drop_zero] at hinv
    exact bofResult F n hn leftover lines hinv
  | succ fuel ih =>
    intro position leftover lines hpf hpl hinv hlo
    by_cases hpz : position = 0
    · subst hpz
      rw [List.drop_zero] at hinv
      show tailLoopF bufferSize F n (fuel + 1) 0 leftover lines = lastLinesRef F n
      rw [tailLoopF, if_pos (by simp)]
      exact bofResult F n hn leftover lines hinv
    · have hb1 : 1 ≤ min position bufferSize := le_min (by omega) hb
      have hble : min position bufferSize ≤ position := min_le_left _ _
      rw [tailLoopF, if_neg (by omega)]
      have hstart : position - min position bufferSize + min position bufferSize
          = position := by omega
      have hdropsplit : F.drop (position - min position bufferSize)
          = (F.drop (position - min position bufferSize)).take (min position bufferSize)
            ++ F.drop position := by
        conv_lhs => rw [← List.take_append_drop (min position bufferSize)
          (F.drop (position - min position bufferSize))]
        rw [List.drop_drop, hstart]
      have hcl : splitNl ((F.drop (position - min position bufferSize)).take
          (min position bufferSize) ++ leftover)
          = joinLast (splitNl ((F.drop (position - min position bufferSize)).take
            (min position bufferSize))) [leftover] := by
        rw [splitNl_append, splitNl_no_newline leftover hlo]
      have hsplitstart : splitNl (F.drop (position - min position bufferSize))
          = splitNl ((F.drop (position - min position bufferSize)).take
            (min position bufferSize) ++ leftover) ++ lines := by
        conv_lhs => rw [hdropsplit]
        rw [splitNl_append, hinv, joinLast_cons, hcl]
      cases hcl2 : splitNl ((F.drop (position - min position bufferSize)).take
          (min position bufferSize) ++ leftover) with
      | nil => exact absurd hcl2 (splitNl_ne_nil _)
      | cons lo rest =>
        rw [hcl2] at hsplitstart
        have hlo2 : '\n' ∉ lo := splitNl_head_no_newline _ lo rest hcl2
        have hinv2 : splitNl (F.drop (position - min position bufferSize))
            = lo :: (rest ++ lines) := by
          rw [hsplitstart]
          rfl
        dsimp only
        by_cases hstop : n ≤ (rest ++ lines).length
        · rw [if_pos hstop]
          -- the suffix of the accumulated lines already equals the suffix
          -- of the full split of the file
          have hsplitF : splitNl F
              = joinLast (splitNl (F.take (position - min position bufferSize)))
                [lo] ++ (rest ++ lines) := by
            conv_lhs => rw [← List.take_append_drop
              (position - min position bufferSize) F]
            rw [splitNl_append, hinv2, joinLast_cons]
          rw [lastLinesRef]
          rw [if_neg (by
            intro hand
            have hq := joinLast_single_ne_nil
              (splitNl (F.take (position - min position bufferSize))) lo
            have hlen : (splitNl F).length
                = (joinLast (splitNl (F.take (position - min position bufferSize)))
                  [lo]).length + (rest ++ lines).length := by
              rw [hsplitF, List.length_append]
            have hqpos : 1 ≤ (joinLast (splitNl (F.take
                (position - min position bufferSize))) [lo]).length :=
              List.length_pos.mpr hq
            omega)]
          rw [← jsSliceLast_pos _ _ hn]
          rw [hsplitF, jsSliceLast_append _ _ _ hn hstop]
        · rw [if_neg hstop]
          exact ih (position - min position bufferSize) lo (rest ++ lines)
            (by omega) (by omega) hinv2 hlo2

/-- C1 (amended): for every count n ≥ 1 and every file F that is empty or
does not begin with the newline delimiter, lastNLines(F, n) returns exactly
min(n, totalLines(F)) lines, in original file order, equal to the suffix of
the reference full-scan split of F (the fragments of F split on the newline
character, the empty file having zero lines), with no blank-line filtering.
For n = 0 the source returns all lines accumulated in its first chunk pass
(JavaScript slice(-0) is slice(0)), and for a nonempty file beginning with
a newline the leading empty line is dropped when the scan reaches the start
of the file, so those cases are excluded. -/
theorem claim1_lastNLines_full_scan_suffix (F : List Char) (n : Nat)
    (hn : 1 ≤ n) (hF : ∀ c rest, F = c :: rest → c ≠ '\n') :
    getLastNLines F n
        = (if F = [] then [] else (splitNl F).drop ((splitNl F).length - n))
      ∧ (getLastNLines F n).length = min n (totalLines F)
      ∧ List.IsSuffix (getLastNLines F n) (splitNl F) := by
  have hinv : splitNl (F.drop F.length) = ([] : List Char) :: ([] : List (List Char)) := by
    rw [List.drop_length]
    rfl
  have hmain : getLastNLines F n = lastLinesRef F n :=
    tailLoopF_correct 1024 n F (by omega) hn F.length F.length [] []
      (le_refl _) (le_refl _) hinv (by simp)
  cases F with
  | nil =>
    have hnil : lastLinesRef [] n = [] := by
      rw [lastLinesRef]
      rw [if_pos ⟨by simpa [splitNl] using hn, rfl⟩]
      rfl
    refine ⟨?_, ?_, ?_⟩
    · rw [hmain, hnil, if_pos rfl]
    · rw [hmain, hnil]
      simp [totalLines]
    · rw [hmain, hnil]
      exact ⟨splitNl [], by simp⟩
  | cons c rest =>
    have hc : c ≠ '\n' := hF c rest rfl
    have hhead : ∃ l0 ls, splitNl (c :: rest) = (c :: l0) :: ls := by
      cases hr : splitNl rest with
      | nil => exact absurd hr (splitNl_ne_nil rest)
      | cons l0 ls => exact ⟨l0, ls, by simp [splitNl, if_neg hc, hr]⟩
    obtain ⟨l0, ls, hsp⟩ := hhead
    have href : lastLinesRef (c :: rest) n
        = (splitNl (c :: rest)).drop ((splitNl (c :: rest)).length - n) := by
      rw [lastLinesRef]
      rw [if_neg (by
        intro hand
        rw [hsp] at hand
        simp at hand)]
    refine ⟨?_, ?_, ?_⟩
    · rw [hmain, href, if_neg (by simp)]
    · rw [hmain, href, List.length_drop, totalLines, if_neg (by simp)]
      have hpos : 1 ≤ (splitNl (c :: rest)).length :=
        List.length_pos.mpr (splitNl_ne_nil (c :: rest))
      omega
    · rw [hmain, href]
      exact List.drop_suffix _ _

theorem claim1_witness :
    (getLastNLines ['a', '\n', 'b'] 2
        = (if (['a', '\n', 'b'] : List Char) = [] then []
           else (splitNl ['a', '\n', 'b']).drop ((splitNl ['a', '\n', 'b']).length - 2)))
      ∧ (getLastNLines ['a', '\n', 'b'] 2).length = min 2 (totalLines ['a', '\n', 'b'])
      ∧ List.IsSuffix (getLastNLines ['a', '\n', 'b'] 2) (splitNl ['a', '\n', 'b']) :=
  claim1_lastNLines_full_scan_suffix ['a', '\n', 'b'] 2 (by omega) (by
    intro c rest h
    injection h with h1 _
    rw [← h1]
    decide)

/-- C1 fails as stated: with n = 0 the file "a\nb" yields one line (["b"],
since JavaScript slice(-0) returns the whole accumulated array) instead of
min(0, totalLines) = 0 lines, and the file "\na" with n = 2 yields a single
line (["a"], the leading empty line being dropped at beginning-of-file)
instead of min(2, 2) = 2 lines. -/
theorem claim1_counterexample :
    (getLastNLines ['a', '\n', 'b'] 0).length ≠ min 0 (totalLines ['a', '\n', 'b'])
      ∧ (getLastNLines ['\n', 'a'] 2).length ≠ min 2 (totalLines ['\n', 'a']) := by
  decide

/-- Two successive catch-up reads of the same (unmodified) file content:
the engine performs the identical pure computation twice. -/
def twoSuccessiveReads (F : List Char) (n : Nat) :
    List (List Char) × List (List Char) :=
  (getLastNLines F n, getLastNLines F n)

/-- C9: calling lastNLines twice on an unmodified file returns identical
results — the reverse line reader is a pure function of the file content
and the count, so the two reads agree. -/
theorem claim9_lastNLines_idempotent (F : List Char) (n : Nat) :
    (twoSuccessiveReads F n).1 = (twoSuccessiveReads F n).2 := rfl

/-! The tail-engine state and the debounce-triggered check cycle
(src/app.js lines 146-170).  The mutable module-level variable
`lastFileSize` is embedded as explicit state; the results of the fallible
filesystem operations are `Option`-valued inputs, `none` meaning the
promise rejected. -/

structure TailState where
  lastFileSize : Nat
deriving DecidableEq

/-- The body of the debounce timer callback (src/app.js lines 151-168):
await `fs.promises.stat`; if it rejects, the catch block swallows the
error and nothing happens.  If the observed size has grown past
`lastFileSize`, await `getNewLines` (a rejection also lands in the catch
block, before `lastFileSize` is reassigned), then set
`lastFileSize = stats.size` and broadcast the batch.  Otherwise no-op.
Returns the updated state and the batch to broadcast (`none` = no
broadcast). -/
def debouncedCheck (statRes : Option Nat) (readRes : Option (List (List Char)))
    (st : TailState) : TailState × Option (List (List Char)) :=
  match statRes with
  | none => (st, none)
  | some size =>
    if st.lastFileSize < size then
      match readRes with
      | none => (st, none)
      | some newLines => (⟨size⟩, some newLines)
    else (st, none)

/-- A debounce cycle in which both the stat and the read succeed, against a
file with the given current content. -/
def debouncedCheckOk (content : List Char) (st : TailState) :
    TailState × Option (List (List Char)) :=
  debouncedCheck (some content.length)
    (some (getNewLines content st.lastFileSize)) st

/-- Run a sequence of successful debounce cycles observing the given file
contents in order, collecting the broadcast batches actually emitted. -/
def runChecks : List (List Char) → TailState → TailState × List (List (List Char))
  | [], st => (st, [])
  | content :: rest, st =>
    match debouncedCheckOk content st with
    | (st1, b) =>
      match runChecks rest st1 with
      | (st2, bs) =>
        (st2, match b with
          | none => bs
          | some batch => batch :: bs)

theorem debouncedCheck_mono (statRes : Option Nat)
    (readRes : Option (List (List Char))) (st : TailState) :
    st.lastFileSize ≤ ((debouncedCheck statRes readRes st).1).lastFileSize := by
  match statRes with
  | none => exact le_refl _
  | some size =>
    simp only [debouncedCheck]
    by_cases h : st.lastFileSize < size
    · rw [if_pos h]
      match readRes with
      | none => exact le_refl _
      | some newLines => exact Nat.le_of_lt h
    · rw [if_neg h]

theorem debouncedCheck_noGrowth (size : Nat)
    (readRes : Option (List (List Char))) (st : TailState)
    (h : size ≤ st.lastFileSize) :
    debouncedCheck (some size) readRes st = (st, none) := by
  simp [debouncedCheck, Nat.not_lt.mpr h]

theorem runChecks_noGrowth (st : TailState) :
    ∀ contents : List (List Char),
      (∀ c ∈ contents, c.length ≤ st.lastFileSize) →
      runChecks contents st = (st, []) := by
  intro contents
  induction contents with
  | nil => intro _; rfl
  | cons c rest ih =>
    intro h
    have hc : c.length ≤ st.lastFileSize := h c (List.mem_cons_self c rest)
    have hrest : ∀ x ∈ rest, x.length ≤ st.lastFileSize :=
      fun x hx => h x (List.mem_cons_of_mem c hx)
    simp only [runChecks, debouncedCheckOk]
    rw [debouncedCheck_noGrowth c.length _ st hc]
    dsimp only
    rw [ih hrest]

/-! The raw change notifications and the debounce timer
(src/app.js lines 147-170). -/

/-- True when every gap between consecutive notification timestamps is
strictly shorter than the debounce window. -/
def gapsWithin (window : Nat) : List Nat → Bool
  | [] => true
  | [_] => true
  | t1 :: t2 :: rest => decide (t2 < t1 + window) && gapsWithin window (t2 :: rest)

/-- How many times a debounce timer fires for a burst of change
notifications at the given timestamps (src/app.js lines 150-151, 168):
each notification clears the pending timer (`clearTimeout`) and schedules
a new one `window` ms out (`setTimeout`), so the timer scheduled at a
notification fires iff the next notification arrives no earlier than
`window` ms later, and the timer of the final notification always fires
once the burst settles.  Each fire executes exactly one size-check/read
cycle (`debouncedCheck`), so this counts those cycles. -/
def debounceFires (window : Nat) : List Nat → Nat
  | [] => 0
  | [_] => 1
  | t1 :: t2 :: rest =>
    (if t2 < t1 + window then 0 else 1) + debounceFires window (t2 :: rest)

/-! The WebSocket broadcast loop and connection handler
(src/app.js lines 127-144 and 158-163). -/

/-- The ws library constant WebSocket.OPEN. -/
def WS_OPEN : Nat := 1

/-- A client in wss.clients at broadcast time: its identity, its
readyState, and whether a send to it would actually succeed.  The ws
send reports failures asynchronously and does not throw here, so
`sendOk` cannot influence the iteration over the client set. -/
structure Client where
  id : Nat
  readyState : Nat
  sendOk : Bool
deriving DecidableEq

/-- The two JSON message shapes the engine ever serializes:
a batch of lines, or an error string. -/
inductive Msg where
  | lines (ls : List (List Char))
  | error (e : String)
deriving DecidableEq

/-- The broadcast loop (src/app.js lines 158-163):
wss.clients.forEach sends the batch message to every client whose
readyState is WebSocket.OPEN.  Returns the (client id, message)
deliveries attempted, in iteration order. -/
def broadcast (clients : List Client) (newLines : List (List Char)) :
    List (Nat × Msg) :=
  clients.filterMap (fun c =>
    if c.readyState = WS_OPEN then some (c.id, Msg.lines newLines) else none)

/-- The connection handler (src/app.js lines 127-144): on a new client
connection, read the last 10 lines and send them as a lines message, or
send the fixed error message if the read rejected.  `file` is the file
content at catch-up time (`none` = the read failed).  The engine state is
passed through untouched: the handler never references `lastFileSize`. -/
def onConnection (file : Option (List Char)) (st : TailState) : TailState × Msg :=
  match file with
  | some content => (st, Msg.lines (getLastNLines content 10))
  | none => (st, Msg.error "Unable to read file")

/-- Startup initialization of `lastFileSize` (src/app.js lines 173-180):
the size from the initial stat, or 0 when the stat rejects (the catch
block logs and continues; the failure is not fatal). -/
def initLastFileSize (statRes : Option Nat) : Nat :=
  match statRes with
  | some size => size
  | none => 0

theorem mem_broadcast_iff (clients : List Client) (batch : List (List Char))
    (i : Nat) (m : Msg) :
    (i, m) ∈ broadcast clients batch
      ↔ ∃ c ∈ clients, c.readyState = WS_OPEN ∧ c.id = i ∧ m = Msg.lines batch := by
  simp only [broadcast, List.mem_filterMap]
  constructor
  · rintro ⟨c, hc, hfc⟩
    by_cases h : c.readyState = WS_OPEN
    · rw [if_pos h, Option.some.injEq, Prod.mk.injEq] at hfc
      exact ⟨c, hc, h, hfc.1, hfc.2.symm⟩
    · rw [if_neg h] at hfc
      exact absurd hfc (by simp)
  · rintro ⟨c, hc, hopen, hid, hm⟩
    exact ⟨c, hc, by rw [if_pos hopen, hid, ← hm]⟩

theorem broadcast_snd_eq (clients : List Client) (batch : List (List Char)) :
    ∀ p ∈ broadcast clients batch, p.2 = Msg.lines batch := by
  intro p hp
  obtain ⟨i, m⟩ := p
  obtain ⟨c, _, _, _, hm⟩ := (mem_broadcast_iff clients batch i m).mp hp
  simpa using hm

theorem broadcast_mem_id (clients : List Client) (batch : List (List Char))
    (i : Nat) (m : Msg) (h : (i, m) ∈ broadcast clients batch) :
    i ∈ clients.map Client.id := by
  obtain ⟨c, hc, _, hid, _⟩ := (mem_broadcast_iff clients batch i m).mp h
  exact hid ▸ List.mem_map_of_mem Client.id hc

theorem broadcast_count_open (clients : List Client) (batch : List (List Char))
    (hids : (clients.map Client.id).Nodup) :
    ∀ c ∈ clients, c.readyState = WS_OPEN →
      (broadcast clients batch).count (c.id, Msg.lines batch) = 1 := by
  induction clients with
  | nil =>
    intro c hc
    exact absurd hc (List.not_mem_nil c)
  | cons d rest ih =>
    intro c hc hopen
    have hpair : (∀ x ∈ rest, ¬x.id = d.id) ∧ (rest.map Client.id).Nodup := by
      simpa using hids
    have hdid : d.id ∉ rest.map Client.id := by
      intro hmem
      obtain ⟨x, hx, he⟩ := List.mem_map.mp hmem
      exact hpair.1 x hx he
    have hids2 : (rest.map Client.id).Nodup := hpair.2
    rcases List.mem_cons.mp hc with hcd | hcr
    · rw [hcd] at hopen ⊢
      have hbro : broadcast (d :: rest) batch
          = (d.id, Msg.lines batch) :: broadcast rest batch := by
        simp [broadcast, List.filterMap_cons, hopen]
      rw [hbro, List.count_cons]
      have hz : (broadcast rest batch).count (d.id, Msg.lines batch) = 0 :=
        List.count_eq_zero.mpr
          (fun hmem => hdid (broadcast_mem_id rest batch d.id _ hmem))
      simp [hz]
    · have hne : c.id ≠ d.id := by
        intro he
        exact hdid (he ▸ List.mem_map_of_mem Client.id hcr)
      by_cases hd : d.readyState = WS_OPEN
      · have hbro : broadcast (d :: rest) batch
            = (d.id, Msg.lines batch) :: broadcast rest batch := by
          simp [broadcast, List.filterMap_cons, hd]
        rw [hbro, List.count_cons, ih hids2 c hcr hopen]
        simp [Ne.symm hne]
      · have hbro : broadcast (d :: rest) batch = broadcast rest batch := by
          simp [broadcast, List.filterMap_cons, hd]
        rw [hbro]
        exact ih hids2 c hcr hopen

theorem broadcast_closed_not_mem (clients : List Client)
    (batch : List (List Char)) (hids : (clients.map Client.id).Nodup) :
    ∀ c ∈ clients, c.readyState ≠ WS_OPEN →
      ∀ m, (c.id, m) ∉ broadcast clients batch := by
  intro c hc hclosed m hmem
  obtain ⟨c2, hc2, hopen, hid, _⟩ := (mem_broadcast_iff clients batch c.id m).mp hmem
  have heq : c2 = c := List.inj_on_of_nodup_map hids hc2 hc hid
  exact hclosed (heq ▸ hopen)

theorem broadcast_sendOk_independent (clients : List Client)
    (batch : List (List Char)) (g : Client → Bool) :
    broadcast (clients.map (fun c => ⟨c.id, c.readyState, g c⟩)) batch
      = broadcast clients batch := by
  simp only [broadcast]
  rw [List.filterMap_map]
  rfl

/-- C2 (amended): for every file F and appended content C (with no other
writes), newLines(F ++ C, |F|) returns exactly the non-blank
(non-whitespace-only) fragments of C split on the newline delimiter, in
file order — including a non-blank trailing fragment not yet terminated by
a newline, which the source emits immediately rather than discarding — and
the offset recorded by the engine after any debounce cycle is ≥ |F|. -/
theorem claim2_newLines_of_append (F C : List Char) :
    getNewLines (F ++ C) F.length
        = (splitNl C).filter (fun l => !(isBlankLine l))
      ∧ (∀ statRes readRes st, st.lastFileSize = F.length →
          F.length ≤ ((debouncedCheck statRes readRes st).1).lastFileSize) := by
  constructor
  · rw [getNewLines, List.drop_left]
  · intro statRes readRes st h
    rw [← h]
    exact debouncedCheck_mono statRes readRes st

theorem claim2_witness :
    (getNewLines (['a', '\n'] ++ ['x', '\n', 'y']) (['a', '\n'] : List Char).length
        = (splitNl ['x', '\n', 'y']).filter (fun l => !(isBlankLine l)))
      ∧ (['a', '\n'] : List Char).length
          ≤ ((debouncedCheck (some 5) (some [['x']]) ⟨2⟩).1).lastFileSize :=
  ⟨(claim2_newLines_of_append ['a', '\n'] ['x', '\n', 'y']).1,
   (claim2_newLines_of_append ['a', '\n'] ['x', '\n', 'y']).2
     (some 5) (some [['x']]) ⟨2⟩ rfl⟩

/-- C2 fails as stated: appending C = "a\nx" to an empty file makes
newLines return ["a", "x"], emitting the trailing fragment "x" even though
it is not yet terminated by a newline, where the claim requires only the
fully-contained lines ["a"] (the split minus its final unterminated
fragment, non-blank ones only). -/
theorem claim2_counterexample :
    getNewLines (([] : List Char) ++ ['a', '\n', 'x']) ([] : List Char).length
      ≠ ((splitNl ['a', '\n', 'x']).dropLast).filter (fun l => !(isBlankLine l)) := by
  decide

/-- C3: for every burst of one or more raw change notifications whose
consecutive gaps are all shorter than the 100 ms debounce window, exactly
one debounce timer fires after the burst settles — each new notification
cancels the previously pending timer and only the final scheduled timer
fires — and each fire performs exactly one size-check/read cycle, so the
burst produces one cycle, not one per notification. -/
theorem claim3_debounce_single_fire (times : List Nat) (h1 : times ≠ [])
    (h2 : gapsWithin 100 times = true) : debounceFires 100 times = 1 := by
  induction times with
  | nil => exact absurd rfl h1
  | cons t ts ih =>
    cases ts with
    | nil => rfl
    | cons t2 rest =>
      have h3 : t2 < t + 100 ∧ gapsWithin 100 (t2 :: rest) = true := by
        simpa [gapsWithin] using h2
      show (if t2 < t + 100 then 0 else 1) + debounceFires 100 (t2 :: rest) = 1
      rw [if_pos h3.1, ih (by simp) h3.2]

theorem claim3_witness : debounceFires 100 [0, 40, 90] = 1 :=
  claim3_debounce_single_fire [0, 40, 90] (by decide) (by decide)

/-- C4: lastKnownOffset is monotonically non-decreasing across every
debounce-triggered check; whenever the observed size is ≤ lastFileSize
(shrink, truncation, rotation, or no growth) the check is a no-op that
leaves the state unchanged and broadcasts nothing; and a whole sequence of
checks on contents that all stay at or below the recorded offset emits no
broadcast at all. -/
theorem claim4_offset_monotone :
    (∀ statRes readRes st,
        st.lastFileSize ≤ ((debouncedCheck statRes readRes st).1).lastFileSize)
      ∧ (∀ size readRes st, size ≤ st.lastFileSize →
          debouncedCheck (some size) readRes st = (st, none))
      ∧ (∀ st contents, (∀ c ∈ contents, c.length ≤ st.lastFileSize) →
          runChecks contents st = (st, [])) :=
  ⟨debouncedCheck_mono, debouncedCheck_noGrowth,
   fun st contents h => runChecks_noGrowth st contents h⟩

theorem claim4_witness :
    ((⟨5⟩ : TailState).lastFileSize
        ≤ ((debouncedCheck (some 3) none ⟨5⟩).1).lastFileSize)
      ∧ debouncedCheck (some 3) (some [['a']]) ⟨5⟩ = (⟨5⟩, none)
      ∧ runChecks [['a', 'b']] ⟨5⟩ = (⟨5⟩, []) :=
  ⟨claim4_offset_monotone.1 (some 3) none ⟨5⟩,
   claim4_offset_monotone.2.1 3 (some [['a']]) ⟨5⟩ (by decide),
   claim4_offset_monotone.2.2 ⟨5⟩ [['a', 'b']] (by decide)⟩

/-- C5: a debounce cycle whose stat rejects, or whose incremental read
rejects after a growth was observed, mutates no state: lastFileSize is
unchanged and no batch is broadcast (the try/catch swallows the error, so
the engine also does not crash — the step is a total function), and the
same delta is retried from the unchanged offset on the next cycle. -/
theorem claim5_failure_no_mutation :
    (∀ readRes st, debouncedCheck none readRes st = (st, none))
      ∧ (∀ size st, st.lastFileSize < size →
          debouncedCheck (some size) none st = (st, none)) := by
  constructor
  · intro readRes st
    rfl
  · intro size st h
    simp [debouncedCheck, h]

theorem claim5_witness :
    debouncedCheck none (some [['a']]) ⟨7⟩ = (⟨7⟩, none)
      ∧ debouncedCheck (some 5) none ⟨2⟩ = (⟨2⟩, none) :=
  ⟨claim5_failure_no_mutation.1 (some [['a']]) ⟨7⟩,
   claim5_failure_no_mutation.2 5 ⟨2⟩ (by decide)⟩

/-- C6 (amended): broadcasting a batch delivers that exact batch exactly
once to each subscriber open at the moment of broadcast and zero times to
any closed subscriber, and the delivery attempts are independent of
whether each individual send would succeed (ws send does not throw, so one
failed peer prevents neither the other deliveries nor raises an error to
the broadcaster).  However there is no non-emptiness guard in the source:
the engine broadcasts whenever a growth cycle completes, even when the
blank-line filter leaves the batch empty, so the condition "a delivery
happens only when the batch is non-empty" is dropped. -/
theorem claim6_broadcast_fanout (clients : List Client)
    (batch : List (List Char)) (hids : (clients.map Client.id).Nodup) :
    (∀ c ∈ clients, c.readyState = WS_OPEN →
        (broadcast clients batch).count (c.id, Msg.lines batch) = 1)
      ∧ (∀ c ∈ clients, c.readyState ≠ WS_OPEN →
          ∀ m, (c.id, m) ∉ broadcast clients batch)
      ∧ (∀ p ∈ broadcast clients batch, p.2 = Msg.lines batch)
      ∧ (∀ g : Client → Bool,
          broadcast (clients.map (fun c => ⟨c.id, c.readyState, g c⟩)) batch
            = broadcast clients batch) :=
  ⟨broadcast_count_open clients batch hids,
   broadcast_closed_not_mem clients batch hids,
   broadcast_snd_eq clients batch,
   broadcast_sendOk_independent clients batch⟩

theorem claim6_witness :
    ((broadcast [⟨0, WS_OPEN, true⟩, ⟨1, 3, false⟩] [['a']]).count
        ((0 : Nat), Msg.lines [['a']]) = 1)
      ∧ ((1 : Nat), Msg.lines [['a']])
          ∉ broadcast [⟨0, WS_OPEN, true⟩, ⟨1, 3, false⟩] [['a']] :=
  ⟨(claim6_broadcast_fanout [⟨0, WS_OPEN, true⟩, ⟨1, 3, false⟩] [['a']]
      (by decide)).1 ⟨0, WS_OPEN, true⟩ (by decide) rfl,
   (claim6_broadcast_fanout [⟨0, WS_OPEN, true⟩, ⟨1, 3, false⟩] [['a']]
      (by decide)).2.1 ⟨1, 3, false⟩ (by decide) (by decide) (Msg.lines [['a']])⟩

/-- C6 fails as stated on the non-emptiness condition: a growth cycle on a
file that grew from "a\n" (offset 2) to "a\n\n" observes growth, the
blank-line filter leaves an empty batch, and the engine nevertheless
delivers that empty batch to the open client — a delivery with an empty
batch. -/
theorem claim6_counterexample :
    (debouncedCheckOk ['a', '\n', '\n'] ⟨2⟩).2 = some []
      ∧ broadcast [⟨0, WS_OPEN, true⟩] [] = [(0, Msg.lines [])] := by
  decide

/-- C7: on every subscriber registration, exactly once and at registration
time only, the engine sends that subscriber either the result of a
catch-up lastNLines read with n = 10 as a lines message, or the fixed
error notification if that read failed; the handler produces exactly one
message, and it leaves the engine state untouched (it never references
lastFileSize), so a catch-up failure affects neither other subscribers nor
the engine's running state. -/
theorem claim7_catchup_on_connect (file : Option (List Char)) (st : TailState) :
    (onConnection file st).1 = st
      ∧ ((∃ content, file = some content
            ∧ (onConnection file st).2 = Msg.lines (getLastNLines content 10))
         ∨ (file = none
            ∧ (onConnection file st).2 = Msg.error "Unable to read file")) := by
  cases file with
  | some content => exact ⟨rfl, Or.inl ⟨content, rfl, rfl⟩⟩
  | none => exact ⟨rfl, Or.inr ⟨rfl, rfl⟩⟩

/-- C8: at engine start lastFileSize is initialized from a single stat to
the file's current size, and to 0 when that stat fails; the failure is
swallowed by the catch block, so it is not fatal (the initializer is a
total function). -/
theorem claim8_initial_stat :
    (∀ size, initLastFileSize (some size) = size)
      ∧ initLastFileSize none = 0 :=
  ⟨fun _ => rfl, rfl⟩

/-- C10: every message the engine sends — the connection handler's
catch-up reply and the broadcast loop's batch messages — is one of exactly
two shapes, a lines message carrying a list of strings or an error
message, and in the error case the error string is always the fixed
constant "Unable to read file" regardless of the failure's cause. -/
theorem claim10_message_shapes :
    (∀ file st, (∃ ls, (onConnection file st).2 = Msg.lines ls)
        ∨ (onConnection file st).2 = Msg.error "Unable to read file")
      ∧ (∀ file st e, (onConnection file st).2 = Msg.error e →
          e = "Unable to read file")
      ∧ (∀ clients batch p, p ∈ broadcast clients batch →
          ∃ ls, p.2 = Msg.lines ls) := by
  refine ⟨?_, ?_, ?_⟩
  · intro file st
    cases file with
    | some content => exact Or.inl ⟨getLastNLines content 10, rfl⟩
    | none => exact Or.inr rfl
  · intro file st e h
    cases file with
    | some content => exact absurd h (by simp [onConnection])
    | none =>
      simp only [onConnection, Msg.error.injEq] at h
      exact h.symm
  · intro clients batch p hp
    exact ⟨batch, broadcast_snd_eq clients batch p hp⟩

theorem claim10_witness :
    ("Unable to read file" = "Unable to read file")
      ∧ ∃ ls, (((0 : Nat), Msg.lines [['a']]) : Nat × Msg).2 = Msg.lines ls :=
  ⟨claim10_message_shapes.2.1 none ⟨0⟩ "Unable to read file" rfl,
   claim10_message_shapes.2.2 [⟨0, WS_OPEN, true⟩] [['a']]
     (0, Msg.lines [['a']]) (by decide)⟩

end TailF
